import Mathlib

/-!
Verification of the aitdocs translation pipeline against its specification.

Python strings are modelled as `List Char`; each Python helper used by the
claims is translated into an executable Lean definition, and the spec's
sentences are settled as theorems about those definitions.
-/

namespace Aitdocs

/-- Python whitespace predicate: the characters removed by `str.strip` /
`str.rstrip` with no argument and matched by the regex class `\s`. -/
def isSpace (c : Char) : Bool :=
  c = ' ' || c = '\t' || c = '\n' || c = '\r' || c = '\x0b' || c = '\x0c'

/-- Python `s.rstrip()`: remove trailing whitespace. -/
def rstrip (s : List Char) : List Char :=
  (s.reverse.dropWhile isSpace).reverse

/-- Truthiness of Python `s.strip()`: `s` contains a non-whitespace character. -/
def hasNonWs (s : List Char) : Bool :=
  s.any (fun c => !isSpace c)

/-- Python `s.endswith('\n')` (`False` on the empty string). -/
def endsWithNl (s : List Char) : Bool :=
  match s.getLast? with
  | some c => c = '\n'
  | none => false

/-- Python `content.split('\n')`: split at every newline; the empty string
yields `[""]`. -/
def splitOnNl : List Char → List (List Char)
  | [] => [[]]
  | c :: cs =>
    if c = '\n' then [] :: splitOnNl cs
    else
      match splitOnNl cs with
      | [] => [[c]]
      | l :: ls => (c :: l) :: ls

/-- The three-backtick fence marker. -/
def tick3 : List Char := ['`', '`', '`']

/-- The three-tilde fence marker. -/
def tilde3 : List Char := ['~', '~', '~']

/-- The degenerate all-hash "rule" marker `'#' * 40` from
`markdown_splitter.split_content`. -/
def headerRule : List Char := List.replicate 40 '#'

/-- Loop state of `MarkdownSplitter.split_content`: emitted chunks, the chunk
under construction, and the code-fence tracking flags. -/
structure SplitState where
  chunks : List (List Char)
  current : List Char
  inCode : Bool
  fence : List Char

/-- Fence-state update at the top of the line loop of
`MarkdownSplitter.split_content` (markdown_splitter.py lines 36-44): the new
values of `in_code_block` and `code_block_fence`. -/
def fenceStep (inCode : Bool) (fence line : List Char) : Bool × List Char :=
  if tick3.isPrefixOf line || tilde3.isPrefixOf line then
    if !inCode then (true, line.take 3)
    else if fence.isPrefixOf line then (false, ([] : List Char))
    else (inCode, fence)
  else (inCode, fence)

/-- Body of one iteration of the line loop of `MarkdownSplitter.split_content`
(markdown_splitter.py lines 46-74), after the fence state has been updated to
`inCode`/`fence`.  The float comparison `len(current_chunk) > chunk_size * 0.5`
is rendered exactly as `2 * len > chunk_size`. -/
def lineBody (chunkSize : Nat) (st : SplitState) (line : List Char)
    (inCode : Bool) (fence : List Char) : SplitState :=
  if inCode then
    if st.current.length + (line.length + 1) > chunkSize && !endsWithNl st.current then
      { chunks := st.chunks, current := st.current ++ '\n' :: line,
        inCode := inCode, fence := fence }
    else
      { chunks := st.chunks, current := st.current ++ line ++ ['\n'],
        inCode := inCode, fence := fence }
  else
    if st.current.length + (line.length + 1) > chunkSize then
      { chunks := st.chunks ++ (if hasNonWs st.current then [rstrip st.current] else []),
        current := line ++ ['\n'], inCode := inCode, fence := fence }
    else
      if (['#'].isPrefixOf line && !headerRule.isPrefixOf line) &&
          hasNonWs st.current && 2 * st.current.length > chunkSize then
        { chunks := st.chunks ++ [rstrip st.current], current := line ++ ['\n'],
          inCode := inCode, fence := fence }
      else
        { chunks := st.chunks, current := st.current ++ line ++ ['\n'],
          inCode := inCode, fence := fence }

/-- One iteration of the line loop of `MarkdownSplitter.split_content`
(src/ai_document_translator/markdown_splitter.py lines 34-74).  The fence
state is updated first, exactly as the Python code mutates `in_code_block`
before the size checks. -/
def processLine (chunkSize : Nat) (st : SplitState) (line : List Char) : SplitState :=
  lineBody chunkSize st line (fenceStep st.inCode st.fence line).1
    (fenceStep st.inCode st.fence line).2

/-- Index of the last `'\n'` in a character list, if any. -/
def findLastNlIdx : List Char → Option Nat
  | [] => none
  | c :: cs =>
    match findLastNlIdx cs with
    | some j => some (j + 1)
    | none => if c = '\n' then some 0 else none

/-- Greedy match of the regex `\n\s*\n` at the head of `s`: on success returns
the matched separator and the remaining input.  The greedy `\s*` with the
final backtracked `\n` matches up to the last newline inside the maximal
whitespace run that follows the first newline. -/
def matchSep : List Char → Option (List Char × List Char)
  | [] => none
  | c :: t =>
    if c = '\n' then
      let r := t.takeWhile isSpace
      match findLastNlIdx r with
      | some j => some ('\n' :: r.take (j + 1), t.drop (j + 1))
      | none => none
    else none

/-- Fueled scanner for `re.split(r'(\n\s*\n)', chunk)`: emits alternating text
pieces and captured separators, scanning left to right for leftmost greedy
matches.  When fuel runs out the remaining input is emitted as the final
piece, so concatenating the result always reproduces the input. -/
def reSplitGo : Nat → List Char → List Char → List (List Char)
  | _, acc, [] => [acc.reverse]
  | 0, acc, s => [acc.reverse ++ s]
  | fuel + 1, acc, s =>
    match matchSep s with
    | some (sep, rest) => acc.reverse :: sep :: reSplitGo fuel [] rest
    | none =>
      match s with
      | [] => [acc.reverse]
      | ch :: t => reSplitGo fuel (ch :: acc) t

/-- Python `re.split(r'(\n\s*\n)', chunk)` with the captured separators kept
in the result (fuel `s.length` is always sufficient for the scan). -/
def reSplitSep (s : List Char) : List (List Char) :=
  reSplitGo s.length [] s

/-- Loop state of `MarkdownSplitter._split_large_chunk`: emitted sub-chunks
and the sub-chunk under construction. -/
structure SubSplitState where
  subChunks : List (List Char)
  current : List Char

/-- One iteration of the paragraph loop of `MarkdownSplitter._split_large_chunk`
(src/ai_document_translator/markdown_splitter.py lines 111-128).  When the
remaining slice of a truncated paragraph is empty, `current_sub_chunk` keeps
its old value, exactly as in the Python `if remaining:` guard. -/
def subStep (chunkSize : Nat) (st : SubSplitState) (p : List Char) : SubSplitState :=
  if st.current.length + p.length > chunkSize then
    if p.length > chunkSize then
      { subChunks := (if hasNonWs st.current then st.subChunks ++ [rstrip st.current]
            else st.subChunks) ++ [p.take chunkSize],
        current := if (p.drop chunkSize).isEmpty then st.current else p.drop chunkSize }
    else
      { subChunks := if hasNonWs st.current then st.subChunks ++ [rstrip st.current]
          else st.subChunks,
        current := p }
  else
    { subChunks := st.subChunks, current := st.current ++ p }

/-- Final flush of the phase-two loop: append the pending sub-chunk when it
contains non-whitespace (`if current_sub_chunk.strip(): ...append(...rstrip())`). -/
def subFinal (st : SubSplitState) : List (List Char) :=
  st.subChunks ++ (if hasNonWs st.current then [rstrip st.current] else [])

/-- The fallback `return sub_chunks if sub_chunks else [chunk]` at the end of
`_split_large_chunk`. -/
def nonEmptyOr (l : List (List Char)) (chunk : List Char) : List (List Char) :=
  if l.isEmpty then [chunk] else l

/-- `MarkdownSplitter._split_large_chunk`: paragraph-based re-splitting of an
oversized chunk, hard-truncating paragraphs longer than the limit. -/
def split_large_chunk (chunkSize : Nat) (chunk : List Char) : List (List Char) :=
  if chunk.length ≤ chunkSize then [chunk]
  else
    nonEmptyOr (subFinal ((reSplitSep chunk).foldl (subStep chunkSize) ⟨[], []⟩)) chunk

/-- Final flush of the phase-one line loop (`if current_chunk.strip(): ...`). -/
def ph1Final (st : SplitState) : List (List Char) :=
  st.chunks ++ (if hasNonWs st.current then [rstrip st.current] else [])

/-- `MarkdownSplitter.split_content`: line-based chunking with fence tracking,
followed by paragraph re-splitting of chunks still over the limit. -/
def split_content (chunkSize : Nat) (content : List Char) : List (List Char) :=
  ((ph1Final ((splitOnNl content).foldl (processLine chunkSize) ⟨[], [], false, []⟩)).map
    (fun ch => if ch.length ≤ chunkSize then [ch] else split_large_chunk chunkSize ch)).flatten

/-- Number of code-fence delimiter lines (lines starting with a backtick or
tilde fence marker) in a chunk. -/
def countFenceLines (chunk : List Char) : Nat :=
  ((splitOnNl chunk).filter (fun l => tick3.isPrefixOf l || tilde3.isPrefixOf l)).length

example : splitOnNl "a\n\nb".data = ["a".data, [], "b".data] := by decide
example : rstrip "a \n".data = "a".data := by decide

example :
    split_content 10 ("```".data ++ ['\n'] ++ "abcdefgh".data ++ ['\n'] ++ "```".data) =
      ["```".data ++ ['\n'] ++ "abcdef".data, "gh".data, "```".data] := by decide

example : split_content 2000 "a\n\n".data = ["a".data] := by decide

example : split_content 11 "abcdef\n# x".data = ["abcdef".data, "# x".data] := by decide

/-- A Markdown document consisting of one fenced code block whose body makes
the block longer than the limit: the failing input for the fence-integrity
claim. -/
def fenceDoc : List Char := "```".data ++ ['\n'] ++ "abcdefgh".data ++ ['\n'] ++ "```".data

/-- The non-whitespace characters of a string, in order. -/
def nonWs (s : List Char) : List Char :=
  s.filter (fun c => !isSpace c)

lemma nonWs_append (a b : List Char) : nonWs (a ++ b) = nonWs a ++ nonWs b := by
  simp [nonWs]

lemma nonWs_nl_cons (l : List Char) : nonWs ('\n' :: l) = nonWs l := by
  simp [nonWs, isSpace]

lemma nonWs_nl : nonWs ['\n'] = [] := by decide

lemma nonWs_nil : nonWs [] = [] := rfl

lemma nonWs_of_hasNonWs_eq_false {s : List Char} (h : hasNonWs s = false) :
    nonWs s = [] := by
  simp only [hasNonWs, List.any_eq_false, Bool.not_eq_true'] at h
  simp only [nonWs, List.filter_eq_nil_iff]
  intro c hc
  simp [h c hc]

lemma nonWs_dropWhile (s : List Char) :
    nonWs (s.dropWhile isSpace) = nonWs s := by
  induction s with
  | nil => rfl
  | cons c cs ih =>
    by_cases h : isSpace c
    · rw [List.dropWhile_cons, if_pos h, ih]
      simp [nonWs, h]
    · simp [List.dropWhile_cons, h]

lemma nonWs_reverse (s : List Char) : nonWs s.reverse = (nonWs s).reverse := by
  simp [nonWs, List.filter_reverse]

lemma nonWs_rstrip (s : List Char) : nonWs (rstrip s) = nonWs s := by
  rw [rstrip, nonWs_reverse, nonWs_dropWhile, nonWs_reverse, List.reverse_reverse]

lemma splitOnNl_ne_nil (s : List Char) : splitOnNl s ≠ [] := by
  cases s with
  | nil => simp [splitOnNl]
  | cons c cs =>
    simp only [splitOnNl]
    split
    · simp
    · split <;> simp

lemma splitOnNl_nonWs (s : List Char) :
    ((splitOnNl s).map nonWs).flatten = nonWs s := by
  induction s with
  | nil => simp [splitOnNl, nonWs]
  | cons c cs ih =>
    by_cases h : c = '\n'
    · subst h
      simp only [splitOnNl, if_pos rfl, List.map_cons, List.flatten_cons, nonWs_nl_cons]
      simpa [nonWs] using ih
    · obtain ⟨l, ls, hls⟩ : ∃ l ls, splitOnNl cs = l :: ls := by
        cases hx : splitOnNl cs with
        | nil => exact absurd hx (splitOnNl_ne_nil cs)
        | cons l ls => exact ⟨l, ls, rfl⟩
      simp only [splitOnNl, if_neg h, hls, List.map_cons, List.flatten_cons]
      rw [hls] at ih
      simp only [List.map_cons, List.flatten_cons] at ih
      by_cases hsp : isSpace c
      · simp only [nonWs, List.filter_cons, hsp] at *
        simpa [nonWs] using ih
      · simp only [nonWs, List.filter_cons, hsp] at *
        simpa [nonWs] using congrArg (List.cons c) ih

/-- Non-whitespace material accumulated in a phase-one splitter state. -/
def matPh1 (st : SplitState) : List Char :=
  nonWs st.chunks.flatten ++ nonWs st.current

lemma lineBody_mat (c : Nat) (st : SplitState) (l : List Char)
    (inCode : Bool) (fence : List Char) :
    matPh1 (lineBody c st l inCode fence) = matPh1 st ++ nonWs l := by
  unfold lineBody
  split
  · split <;> simp [matPh1, nonWs_append, nonWs_nl_cons, nonWs_nl, nonWs_nil]
  · split
    · by_cases h : hasNonWs st.current
      · simp [matPh1, h, nonWs_append, nonWs_nl, nonWs_rstrip]
      · simp only [Bool.not_eq_true] at h
        simp [matPh1, h, nonWs_append, nonWs_nl, nonWs_of_hasNonWs_eq_false h]
    · split
      · simp [matPh1, nonWs_append, nonWs_nl, nonWs_rstrip]
      · simp [matPh1, nonWs_append, nonWs_nl]

lemma processLine_mat (c : Nat) (st : SplitState) (l : List Char) :
    matPh1 (processLine c st l) = matPh1 st ++ nonWs l := by
  unfold processLine
  exact lineBody_mat ..

lemma foldl_processLine_mat (c : Nat) :
    ∀ (ls : List (List Char)) (st : SplitState),
      matPh1 (ls.foldl (processLine c) st) = matPh1 st ++ (ls.map nonWs).flatten := by
  intro ls
  induction ls with
  | nil => intro st; simp
  | cons l ls ih =>
    intro st
    simp only [List.foldl_cons, List.map_cons, List.flatten_cons]
    rw [ih, processLine_mat, List.append_assoc]

lemma findLastNlIdx_lt {r : List Char} {j : Nat} (h : findLastNlIdx r = some j) :
    j < r.length := by
  induction r generalizing j with
  | nil => simp [findLastNlIdx] at h
  | cons c cs ih =>
    simp only [findLastNlIdx] at h
    cases hx : findLastNlIdx cs with
    | some k =>
      rw [hx] at h
      cases h
      exact Nat.succ_lt_succ (ih hx)
    | none =>
      rw [hx] at h
      by_cases hc : c = '\n'
      · rw [if_pos hc] at h
        cases h
        simp
      · rw [if_neg hc] at h
        cases h

lemma takeWhile_take_eq (p : Char → Bool) :
    ∀ (t : List Char) (n : Nat), n ≤ (t.takeWhile p).length →
      (t.takeWhile p).take n = t.take n := by
  intro t
  induction t with
  | nil => intro n _; simp
  | cons a t ih =>
    intro n hn
    by_cases hp : p a
    · rw [List.takeWhile_cons, if_pos hp] at hn ⊢
      cases n with
      | zero => simp
      | succ m =>
        simp only [List.take_succ_cons]
        rw [ih m (Nat.le_of_succ_le_succ hn)]
    · rw [List.takeWhile_cons, if_neg hp] at hn
      simp at hn
      subst hn
      simp

lemma matchSep_append {s sep rest : List Char}
    (h : matchSep s = some (sep, rest)) : sep ++ rest = s := by
  cases s with
  | nil => simp [matchSep] at h
  | cons c t =>
    simp only [matchSep] at h
    split at h
    · rename_i hc
      cases hf : findLastNlIdx (t.takeWhile isSpace) with
      | some j =>
        rw [hf] at h
        cases h
        have hj : j + 1 ≤ (t.takeWhile isSpace).length :=
          Nat.succ_le_of_lt (findLastNlIdx_lt hf)
        rw [hc]
        simp only [List.cons_append, List.cons.injEq, true_and]
        rw [takeWhile_take_eq isSpace t (j + 1) hj]
        exact List.take_append_drop (j + 1) t
      | none => rw [hf] at h; cases h
    · cases h

lemma reSplitGo_flatten :
    ∀ (fuel : Nat) (acc s : List Char),
      (reSplitGo fuel acc s).flatten = acc.reverse ++ s := by
  intro fuel
  induction fuel with
  | zero =>
    intro acc s
    cases s <;> simp [reSplitGo]
  | succ n ih =>
    intro acc s
    cases s with
    | nil => simp [reSplitGo]
    | cons ch t =>
      rw [reSplitGo]
      cases hm : matchSep (ch :: t) with
      | some pr =>
        obtain ⟨sep, rest⟩ := pr
        simp only [List.flatten_cons]
        rw [ih [] rest]
        simp only [List.reverse_nil, List.nil_append]
        rw [matchSep_append hm]
      | none =>
        rw [ih (ch :: acc) t]
        simp

lemma reSplitSep_flatten (s : List Char) : (reSplitSep s).flatten = s := by
  rw [reSplitSep, reSplitGo_flatten]
  simp

/-- Non-whitespace material accumulated in a phase-two splitter state. -/
def matSub (st : SubSplitState) : List Char :=
  nonWs st.subChunks.flatten ++ nonWs st.current

lemma nonWs_take_drop (c : Nat) (p : List Char) :
    nonWs (p.take c) ++ nonWs (p.drop c) = nonWs p := by
  rw [← nonWs_append, List.take_append_drop]

lemma subStep_mat (c : Nat) (st : SubSplitState) (p : List Char) :
    matSub (subStep c st p) = matSub st ++ nonWs p := by
  unfold subStep
  split
  · split
    · rename_i hbig
      have hne : ¬(p.drop c).isEmpty = true := by
        simp only [List.isEmpty_iff, List.drop_eq_nil_iff]
        omega
      rw [if_neg hne]
      by_cases h : hasNonWs st.current
      · rw [if_pos h]
        simp only [matSub, List.flatten_append, List.flatten_cons, List.flatten_nil,
          nonWs_append, List.append_nil, List.append_assoc]
        rw [nonWs_rstrip, nonWs_take_drop]
      · rw [if_neg h]
        simp only [Bool.not_eq_true] at h
        simp only [matSub, List.flatten_append, List.flatten_cons, List.flatten_nil,
          nonWs_append, List.append_nil, List.append_assoc,
          nonWs_of_hasNonWs_eq_false h, List.nil_append]
        rw [nonWs_take_drop]
    · by_cases h : hasNonWs st.current
      · rw [if_pos h]
        simp [matSub, nonWs_append, nonWs_rstrip, List.append_assoc]
      · rw [if_neg h]
        simp only [Bool.not_eq_true] at h
        simp [matSub, nonWs_of_hasNonWs_eq_false h]
  · simp [matSub, nonWs_append, List.append_assoc]

lemma foldl_subStep_mat (c : Nat) :
    ∀ (ps : List (List Char)) (st : SubSplitState),
      matSub (ps.foldl (subStep c) st) = matSub st ++ (ps.map nonWs).flatten := by
  intro ps
  induction ps with
  | nil => intro st; simp
  | cons p ps ih =>
    intro st
    simp only [List.foldl_cons, List.map_cons, List.flatten_cons]
    rw [ih, subStep_mat, List.append_assoc]

lemma nonWs_flatten (L : List (List Char)) :
    nonWs L.flatten = (L.map nonWs).flatten := by
  induction L with
  | nil => rfl
  | cons x xs ih => simp [nonWs_append, ih]

lemma subFinal_nonWs (st : SubSplitState) :
    nonWs (subFinal st).flatten = matSub st := by
  unfold subFinal matSub
  by_cases h : hasNonWs st.current
  · rw [if_pos h]
    simp [nonWs_append, nonWs_rstrip]
  · rw [if_neg h]
    simp only [Bool.not_eq_true] at h
    simp [nonWs_of_hasNonWs_eq_false h]

lemma split_large_chunk_nonWs (c : Nat) (ch : List Char) :
    nonWs (split_large_chunk c ch).flatten = nonWs ch := by
  unfold split_large_chunk
  split
  · simp
  · have hmat : matSub ((reSplitSep ch).foldl (subStep c) ⟨[], []⟩) = nonWs ch := by
      rw [foldl_subStep_mat]
      rw [← nonWs_flatten, reSplitSep_flatten]
      simp [matSub, nonWs_nil]
    unfold nonEmptyOr
    split
    · simp
    · rw [subFinal_nonWs, hmat]

lemma ph1Final_nonWs (st : SplitState) :
    nonWs (ph1Final st).flatten = matPh1 st := by
  unfold ph1Final matPh1
  by_cases h : hasNonWs st.current
  · rw [if_pos h]
    simp [nonWs_append, nonWs_rstrip]
  · rw [if_neg h]
    simp only [Bool.not_eq_true] at h
    simp [nonWs_of_hasNonWs_eq_false h]

lemma phase2_map_nonWs (c : Nat) :
    ∀ L : List (List Char),
      nonWs ((L.map (fun ch => if ch.length ≤ c then [ch]
          else split_large_chunk c ch)).flatten).flatten = nonWs L.flatten := by
  intro L
  induction L with
  | nil => rfl
  | cons ch L ih =>
    simp only [List.map_cons, List.flatten_cons, List.flatten_append, nonWs_append, ih]
    congr 1
    split
    · simp
    · exact split_large_chunk_nonWs c ch

/-- C3 (amended).  The non-whitespace characters of the input are preserved by
`split_content`, each exactly once and in original order: concatenating the
output chunks and erasing whitespace yields the input with whitespace erased. -/
theorem C3_amended_nonws_preserved (c : Nat) (content : List Char) :
    nonWs (split_content c content).flatten = nonWs content := by
  unfold split_content
  rw [phase2_map_nonWs, ph1Final_nonWs, foldl_processLine_mat, splitOnNl_nonWs]
  simp [matPh1, nonWs_nil]

/-- C3 (counterexample).  The document consisting of the three lines
`"a"`, `""`, `""` contains the empty line, yet no chunk produced by
`split_content` contains that line: whitespace-only lines are dropped, so not
every input line appears in exactly one output chunk. -/
theorem C3_counterexample :
    ([] : List Char) ∈ splitOnNl "a\n\n".data ∧
      ∀ ch ∈ split_content 2000 "a\n\n".data, ([] : List Char) ∉ splitOnNl ch := by
  decide

/-- C1 (evaluation at the failing input).  For the document
` ```\nabcdefgh\n``` ` and limit 10, `split_content` separates the closing
fence from its code block and truncates the block mid-line: two output chunks
contain an odd number of fence-delimiter lines, so the fenced block is not
kept intact in a single chunk. -/
theorem C1_fence_split_eval :
    split_content 10 fenceDoc =
        ["```".data ++ ['\n'] ++ "abcdef".data, "gh".data, "```".data] ∧
      ∃ ch ∈ split_content 10 fenceDoc, countFenceLines ch % 2 = 1 := by
  decide

/-- C4 (counterexample).  The 10-character document `"abcdef\n# x"` is within
the limit 11, yet `split_content` returns two chunks (the heading line
triggers a split once the accumulated chunk exceeds half the limit), not one
chunk equal to the trimmed input. -/
theorem C4_counterexample :
    ("abcdef\n# x".data).length ≤ 11 ∧
      split_content 11 "abcdef\n# x".data ≠ [rstrip "abcdef\n# x".data] ∧
      (split_content 11 "abcdef\n# x".data).length = 2 := by
  decide

/-- Lines rejoined with a terminating newline after each line. -/
def flatT (ls : List (List Char)) : List Char :=
  (ls.map (fun l => l ++ ['\n'])).flatten

lemma flatT_splitOnNl (s : List Char) : flatT (splitOnNl s) = s ++ ['\n'] := by
  induction s with
  | nil => rfl
  | cons c cs ih =>
    by_cases h : c = '\n'
    · subst h
      simp only [splitOnNl, if_pos rfl, flatT, List.map_cons, List.flatten_cons] at *
      simp [ih]
    · obtain ⟨l, ls, hls⟩ : ∃ l ls, splitOnNl cs = l :: ls := by
        cases hx : splitOnNl cs with
        | nil => exact absurd hx (splitOnNl_ne_nil cs)
        | cons l ls => exact ⟨l, ls, rfl⟩
      rw [hls] at ih
      simp only [splitOnNl, if_neg h, hls]
      simp only [flatT, List.map_cons, List.flatten_cons] at ih ⊢
      simp [← ih]

lemma lineBody_no_flush (c : Nat) (st : SplitState) (l : List Char)
    (ic : Bool) (f : List Char)
    (hov : st.current.length + (l.length + 1) ≤ c)
    (hhalf : 2 * st.current.length ≤ c) :
    lineBody c st l ic f =
      ⟨st.chunks, st.current ++ l ++ ['\n'], ic, f⟩ := by
  unfold lineBody
  cases ic with
  | true =>
    rw [if_pos rfl]
    have : ¬(decide (st.current.length + (l.length + 1) > c) && !endsWithNl st.current) = true := by
      simp only [Bool.and_eq_true, decide_eq_true_eq]
      omega
    rw [if_neg this]
  | false =>
    rw [if_neg (by simp)]
    rw [if_neg (by omega)]
    have : ¬((['#'].isPrefixOf l && !headerRule.isPrefixOf l) &&
        hasNonWs st.current && decide (2 * st.current.length > c)) = true := by
      simp only [Bool.and_eq_true, decide_eq_true_eq]
      omega
    rw [if_neg this]

lemma foldl_no_flush (c : Nat) :
    ∀ (ls : List (List Char)) (cur : List Char) (ic : Bool) (f : List Char),
      2 * (cur.length + (flatT ls).length) ≤ c →
      ∃ ic' f', ls.foldl (processLine c) ⟨[], cur, ic, f⟩ =
        ⟨[], cur ++ flatT ls, ic', f'⟩ := by
  intro ls
  induction ls with
  | nil =>
    intro cur ic f _
    exact ⟨ic, f, by simp [flatT]⟩
  | cons l ls ih =>
    intro cur ic f hb
    have hlen : (flatT (l :: ls)).length = (l.length + 1) + (flatT ls).length := by
      simp [flatT]
      omega
    rw [hlen] at hb
    simp only [List.foldl_cons]
    rw [processLine]
    rw [lineBody_no_flush c ⟨[], cur, ic, f⟩ l _ _ (by simp; omega) (by simp; omega)]
    obtain ⟨ic', f', hrec⟩ := ih (cur ++ l ++ ['\n'])
      (fenceStep ic f l).1 (fenceStep ic f l).2 (by simp; omega)
    refine ⟨ic', f', ?_⟩
    rw [hrec]
    simp [flatT, List.append_assoc]

lemma hasNonWs_append_nl (x : List Char) :
    hasNonWs (x ++ ['\n']) = hasNonWs x := by
  simp [hasNonWs, isSpace]

lemma rstrip_append_nl (x : List Char) :
    rstrip (x ++ ['\n']) = rstrip x := by
  simp [rstrip, List.dropWhile_cons, isSpace]

lemma rstrip_length_le (x : List Char) : (rstrip x).length ≤ x.length := by
  rw [rstrip]
  simpa using (List.dropWhile_sublist (l := x.reverse) (p := isSpace)).length_le

/-- C4 (amended).  If the document contains a non-whitespace character and
fits within half the limit (`2 * (size + 1) ≤ limit`), `split_content`
returns exactly one chunk, equal to the input with trailing whitespace
removed. -/
theorem C4_amended_single_chunk (c : Nat) (content : List Char)
    (hsize : 2 * (content.length + 1) ≤ c) (hnw : hasNonWs content = true) :
    split_content c content = [rstrip content] := by
  unfold split_content
  obtain ⟨ic', f', hfold⟩ := foldl_no_flush c (splitOnNl content) [] false []
    (by rw [flatT_splitOnNl]; simpa using hsize)
  rw [hfold]
  rw [flatT_splitOnNl] at *
  unfold ph1Final
  simp only [List.nil_append]
  rw [hasNonWs_append_nl]
  rw [if_pos hnw]
  rw [rstrip_append_nl]
  have hle : (rstrip content).length ≤ c := by
    have := rstrip_length_le content
    omega
  simp [hle]

/-- C4 (witness for the amended theorem). -/
theorem C4_amended_single_chunk_witness :
    (2 * ("ab".data.length + 1) ≤ 6 ∧ hasNonWs "ab".data = true) ∧
      split_content 6 "ab".data = [rstrip "ab".data] :=
  ⟨⟨by decide, by decide⟩, C4_amended_single_chunk 6 "ab".data (by decide) (by decide)⟩

/-! ### Checkpoint state and the incremental run (document_translator.py) -/

/-- The two checkpoint fields stored in the `.aitdocs_state` JSON file
(`last_commit_hash`, `ignore_hash`), each possibly absent. -/
structure StateRec where
  last_commit_hash : Option (List Char)
  ignore_hash : Option (List Char)
deriving DecidableEq

/-- `DocumentTranslator._save_last_commit_hash` (document_translator.py lines
430-457): if the current commit hash resolves, both checkpoint fields are
overwritten and the file rewritten; if it is `None`, nothing is written and
the stored state is unchanged. -/
def save_last_commit_hash (commitHash : Option (List Char)) (ignoreHash : List Char)
    (stored : Option StateRec) : Option StateRec :=
  match commitHash with
  | none => stored
  | some h => some { last_commit_hash := some h, ignore_hash := some ignoreHash }

/-- The tail of `DocumentTranslator.translate_markdown_directory`
(document_translator.py lines 96-130): each candidate file is translated in a
`try` block (failures are caught and skipped), and afterwards, whenever
`incremental` is set, `_save_last_commit_hash` is called unconditionally.
`ok f` tells whether the per-file translation job for `f` succeeds; the
result is the list of successfully translated files together with the
checkpoint state after the run. -/
def translate_markdown_directory_run {α : Type} (incremental : Bool) (files : List α)
    (ok : α → Bool) (commitHash : Option (List Char)) (ignoreHash : List Char)
    (stored : Option StateRec) : List α × Option StateRec :=
  (files.filter ok,
    if incremental then save_last_commit_hash commitHash ignoreHash stored else stored)

/-- C2 (counterexample).  An incremental run over one file whose translation
job fails (zero successes) still rewrites the checkpoint: with a resolvable
commit hash, the stored state after the run differs from the prior one, so a
run in which every per-file job fails does not leave the checkpoint
unchanged. -/
theorem C2_counterexample :
    (translate_markdown_directory_run true [0] (fun _ => false) (some "c2".data)
        "i1".data (some ⟨some "c1".data, some "i0".data⟩)).1 = [] ∧
      (translate_markdown_directory_run true [0] (fun _ => false) (some "c2".data)
          "i1".data (some ⟨some "c1".data, some "i0".data⟩)).2 ≠
        some ⟨some "c1".data, some "i0".data⟩ := by
  decide

/-- C2 (amended).  In incremental mode the checkpoint is rewritten at the end
of every run for which the current commit hash resolves — regardless of how
many files were translated successfully, zero included; when the hash does
not resolve, or in non-incremental mode, the stored checkpoint is left
unchanged. -/
theorem C2_amended_checkpoint_policy :
    (∀ (files : List Nat) (ok : Nat → Bool) (h ih : List Char) (stored : Option StateRec),
        (translate_markdown_directory_run true files ok (some h) ih stored).2 =
          some ⟨some h, some ih⟩) ∧
      (∀ (files : List Nat) (ok : Nat → Bool) (ih : List Char) (stored : Option StateRec),
        (translate_markdown_directory_run true files ok none ih stored).2 = stored) ∧
      (∀ (files : List Nat) (ok : Nat → Bool) (ch : Option (List Char)) (ih : List Char)
          (stored : Option StateRec),
        (translate_markdown_directory_run false files ok ch ih stored).2 = stored) := by
  refine ⟨fun _ _ _ _ _ => rfl, fun _ _ _ _ => rfl, fun _ _ _ _ _ => rfl⟩

/-! ### Ignore-rule fingerprint (ignore_manager.py) -/

/-- Python string comparison: lexicographic order on code points. -/
def leStr : List Char → List Char → Bool
  | [], _ => true
  | _ :: _, [] => false
  | a :: as, b :: bs => if a = b then leStr as bs else decide (a < b)

/-- The ordering relation used by Python `sorted` on strings. -/
def RStr (a b : List Char) : Prop := leStr a b = true

instance : DecidableRel RStr := fun a b => by
  unfold RStr
  infer_instance

lemma leStr_total (a b : List Char) : leStr a b = true ∨ leStr b a = true := by
  induction a generalizing b with
  | nil => left; rfl
  | cons x xs ih =>
    cases b with
    | nil => right; rfl
    | cons y ys =>
      by_cases hxy : x = y
      · subst hxy
        simpa [leStr] using ih ys
      · rcases lt_or_gt_of_ne hxy with hlt | hgt
        · left
          simp [leStr, hxy, hlt]
        · right
          have hne : y ≠ x := fun h => hxy h.symm
          simp [leStr, hne, hgt]

lemma leStr_trans {a b c : List Char}
    (hab : leStr a b = true) (hbc : leStr b c = true) : leStr a c = true := by
  induction a generalizing b c with
  | nil => rfl
  | cons x xs ih =>
    cases b with
    | nil => simp [leStr] at hab
    | cons y ys =>
      cases c with
      | nil => simp [leStr] at hbc
      | cons z zs =>
        by_cases hxy : x = y
        · subst hxy
          by_cases hyz : x = z
          · subst hyz
            simp only [leStr, if_pos rfl] at hab hbc ⊢
            exact ih hab hbc
          · simp only [leStr, if_pos rfl] at hab
            simp only [leStr, if_neg hyz] at hbc ⊢
            exact hbc
        · by_cases hyz : y = z
          · subst hyz
            simp only [leStr, if_neg hxy] at hab ⊢
            exact hab
          · simp only [leStr, if_neg hxy] at hab
            simp only [leStr, if_neg hyz] at hbc
            have hlt : x < z := lt_trans (by simpa using hab) (by simpa using hbc)
            have hxz : x ≠ z := ne_of_lt hlt
            simp [leStr, hxz, hlt]

lemma leStr_antisymm {a b : List Char}
    (hab : leStr a b = true) (hba : leStr b a = true) : a = b := by
  induction a generalizing b with
  | nil =>
    cases b with
    | nil => rfl
    | cons y ys => simp [leStr] at hba
  | cons x xs ih =>
    cases b with
    | nil => simp [leStr] at hab
    | cons y ys =>
      by_cases hxy : x = y
      · subst hxy
        simp only [leStr, if_pos rfl] at hab hba
        rw [ih hab hba]
      · have hyx : y ≠ x := fun h => hxy h.symm
        simp only [leStr, if_neg hxy] at hab
        simp only [leStr, if_neg hyx] at hba
        exact absurd (lt_trans (by simpa using hab) (by simpa using hba)) (lt_irrefl x)

instance : IsTotal (List Char) RStr :=
  ⟨fun a b => leStr_total a b⟩

instance : IsTrans (List Char) RStr :=
  ⟨fun _ _ _ => leStr_trans⟩

instance : IsAntisymm (List Char) RStr :=
  ⟨fun _ _ => leStr_antisymm⟩

/-- Python `sorted(patterns)`: the unique `leStr`-ordered permutation of the
pattern list (Python's sort is modelled by insertion sort; since the
lexicographic order is total and antisymmetric, every correct sort produces
this list). -/
def sortStrings (l : List (List Char)) : List (List Char) :=
  List.insertionSort RStr l

/-- Python `'\n'.join(...)`. -/
def joinNl : List (List Char) → List Char
  | [] => []
  | [x] => x
  | x :: xs => x ++ '\n' :: joinNl xs

/-- `IgnorePatternManager.get_ignore_hash` (ignore_manager.py lines 85-97):
the string that is hashed — `'\n'.join(sorted(self.ignore_patterns))` — with
no deduplication.  The function returns the MD5 hex digest of this string;
since MD5 is a fixed deterministic function, fingerprint equality and
distinctness are settled on this hash input.
`DocumentTranslator._calculate_ignore_hash` hashes the same shape of string. -/
def ignoreHashInput (patterns : List (List Char)) : List Char :=
  joinNl (sortStrings patterns)

/-- C5 (counterexample).  Duplicate rules change the hashed string: the
fingerprint input for `["a", "a"]` differs from the one for `["a"]`, so the
fingerprint is not a hash over a deduplicated pattern list. -/
theorem C5_counterexample :
    ignoreHashInput [['a'], ['a']] ≠ ignoreHashInput [['a']] := by
  decide

lemma sortStrings_eq_of_perm {l₁ l₂ : List (List Char)} (h : l₁.Perm l₂) :
    sortStrings l₁ = sortStrings l₂ := by
  exact List.eq_of_perm_of_sorted (r := RStr)
    (((List.perm_insertionSort RStr l₁).trans h).trans
      (List.perm_insertionSort RStr l₂).symm)
    (List.sorted_insertionSort RStr l₁) (List.sorted_insertionSort RStr l₂)

lemma joinNl_length :
    ∀ (l : List (List Char)), l ≠ [] →
      (joinNl l).length + 1 = (l.map List.length).sum + l.length := by
  intro l
  induction l with
  | nil => intro h; exact absurd rfl h
  | cons x xs ih =>
    intro _
    cases xs with
    | nil => simp [joinNl]
    | cons y ys =>
      have := ih (by simp)
      simp only [joinNl, List.map_cons, List.sum_cons, List.length_cons,
        List.length_append] at *
      omega

lemma sortStrings_length_sum (l : List (List Char)) :
    ((sortStrings l).map List.length).sum = (l.map List.length).sum :=
  ((List.perm_insertionSort RStr l).map List.length).sum_eq

lemma sortStrings_length (l : List (List Char)) :
    (sortStrings l).length = l.length :=
  (List.perm_insertionSort RStr l).length_eq

lemma sortStrings_ne_nil {l : List (List Char)} (h : l ≠ []) :
    sortStrings l ≠ [] := by
  intro hc
  have := sortStrings_length l
  rw [hc] at this
  cases l with
  | nil => exact h rfl
  | cons x xs => simp at this

/-- A rule as every pattern source of the code constructs it: a non-empty
single line.  Ignore-file entries are `line.strip()`ed and kept only when
truthy (non-empty) and reading per line excludes embedded newlines; the
built-in defaults and CLI glob patterns are such one-line literals. -/
def validPattern (p : List Char) : Prop :=
  p ≠ [] ∧ '\n' ∉ p

instance (p : List Char) : Decidable (validPattern p) := by
  unfold validPattern
  infer_instance

lemma joinNl_ne_nil {x : List Char} (xs : List (List Char)) (hx : x ≠ []) :
    joinNl (x :: xs) ≠ [] := by
  cases xs with
  | nil => exact hx
  | cons y ys =>
    have h : joinNl (x :: y :: ys) = x ++ '\n' :: joinNl (y :: ys) := rfl
    rw [h]
    simp

lemma newline_sep_inj :
    ∀ {a b r s : List Char}, '\n' ∉ a → '\n' ∉ b →
      a ++ '\n' :: r = b ++ '\n' :: s → a = b ∧ r = s := by
  intro a
  induction a with
  | nil =>
    intro b r s _ hb h
    cases b with
    | nil => simpa using h
    | cons c cs =>
      simp only [List.nil_append, List.cons_append, List.cons.injEq] at h
      exact absurd (h.1 ▸ List.mem_cons_self c cs) hb
  | cons c cs ih =>
    intro b r s ha hb h
    cases b with
    | nil =>
      simp only [List.nil_append, List.cons_append, List.cons.injEq] at h
      exact absurd (h.1 ▸ List.mem_cons_self c cs) ha
    | cons d ds =>
      simp only [List.cons_append, List.cons.injEq] at h
      have hcs : '\n' ∉ cs := fun hm => ha (List.mem_cons_of_mem c hm)
      have hds : '\n' ∉ ds := fun hm => hb (List.mem_cons_of_mem d hm)
      obtain ⟨h1, h2⟩ := ih hcs hds h.2
      exact ⟨by rw [h.1, h1], h2⟩

lemma joinNl_inj :
    ∀ {L₁ L₂ : List (List Char)},
      (∀ p ∈ L₁, validPattern p) → (∀ p ∈ L₂, validPattern p) →
      joinNl L₁ = joinNl L₂ → L₁ = L₂ := by
  intro L₁
  induction L₁ with
  | nil =>
    intro L₂ _ h₂ h
    cases L₂ with
    | nil => rfl
    | cons y ys =>
      exact absurd h.symm (joinNl_ne_nil ys (h₂ y (List.mem_cons_self y ys)).1)
  | cons x xs ih =>
    intro L₂ h₁ h₂ h
    cases L₂ with
    | nil => exact absurd h (joinNl_ne_nil xs (h₁ x (List.mem_cons_self x xs)).1)
    | cons y ys =>
      have hx : '\n' ∉ x := (h₁ x (List.mem_cons_self x xs)).2
      have hy : '\n' ∉ y := (h₂ y (List.mem_cons_self y ys)).2
      cases xs with
      | nil =>
        cases ys with
        | nil =>
          have hxy : x = y := h
          rw [hxy]
        | cons z zs =>
          have e0 : joinNl [x] = x := rfl
          have e : joinNl (y :: z :: zs) = y ++ '\n' :: joinNl (z :: zs) := rfl
          rw [e0, e] at h
          have hmem : '\n' ∈ x := by
            rw [h]
            exact List.mem_append_right y (List.mem_cons_self '\n' _)
          exact absurd hmem hx
      | cons w ws =>
        cases ys with
        | nil =>
          have e0 : joinNl [y] = y := rfl
          have e : joinNl (x :: w :: ws) = x ++ '\n' :: joinNl (w :: ws) := rfl
          rw [e0, e] at h
          have hmem : '\n' ∈ y := by
            rw [← h]
            exact List.mem_append_right x (List.mem_cons_self '\n' _)
          exact absurd hmem hy
        | cons z zs =>
          have e₁ : joinNl (x :: w :: ws) = x ++ '\n' :: joinNl (w :: ws) := rfl
          have e₂ : joinNl (y :: z :: zs) = y ++ '\n' :: joinNl (z :: zs) := rfl
          rw [e₁, e₂] at h
          obtain ⟨hxy, hrest⟩ := newline_sep_inj hx hy h
          have htail := ih (fun p hp => h₁ p (List.mem_cons_of_mem x hp))
            (fun p hp => h₂ p (List.mem_cons_of_mem y hp)) hrest
          rw [hxy, htail]

lemma sortStrings_valid {l : List (List Char)} (h : ∀ p ∈ l, validPattern p) :
    ∀ p ∈ sortStrings l, validPattern p := fun p hp =>
  h p ((List.perm_insertionSort RStr l).mem_iff.mp hp)

lemma ignoreHashInput_perm_of_eq {l₁ l₂ : List (List Char)}
    (h₁ : ∀ p ∈ l₁, validPattern p) (h₂ : ∀ p ∈ l₂, validPattern p)
    (h : ignoreHashInput l₁ = ignoreHashInput l₂) : l₁.Perm l₂ := by
  unfold ignoreHashInput at h
  have hsort : sortStrings l₁ = sortStrings l₂ :=
    joinNl_inj (sortStrings_valid h₁) (sortStrings_valid h₂) h
  have p₁ : (sortStrings l₁).Perm l₁ := List.perm_insertionSort RStr l₁
  have p₂ : (sortStrings l₂).Perm l₂ := List.perm_insertionSort RStr l₂
  rw [← hsort] at p₂
  exact p₁.symm.trans p₂

lemma ignoreHashInput_append_ne (l : List (List Char)) (p : List Char)
    (hne : l ≠ []) : ignoreHashInput (l ++ [p]) ≠ ignoreHashInput l := by
  intro hc
  have h1 : (ignoreHashInput (l ++ [p])).length + 1 =
      ((l ++ [p]).map List.length).sum + (l ++ [p]).length := by
    unfold ignoreHashInput
    rw [joinNl_length _ (sortStrings_ne_nil (by simp)), sortStrings_length_sum,
      sortStrings_length]
  have h2 : (ignoreHashInput l).length + 1 = (l.map List.length).sum + l.length := by
    unfold ignoreHashInput
    rw [joinNl_length _ (sortStrings_ne_nil hne), sortStrings_length_sum,
      sortStrings_length]
  rw [hc] at h1
  have hl : 1 ≤ l.length := by
    cases l with
    | nil => exact absurd rfl hne
    | cons x xs => simp
  simp only [List.map_append, List.sum_append, List.length_append] at h1
  simp at h1
  omega

/-- C5 (amended).  The fingerprint hashes the sorted pattern list without
deduplication.  Reordering the input patterns never changes the hashed
string, and for rule lists as the code builds them (each pattern a non-empty
single line: stripped non-empty ignore-file entries, the built-in defaults,
CLI globs) the hashed string determines the rule multiset exactly — two rule
lists hash the same string precisely when one is a reordering of the other —
so editing a rule, appending a rule, and (by symmetry) removing a rule always
change the hashed string; duplicate entries are retained and affect it.
Appending also changes the hash for arbitrary non-empty rule lists, by
length. -/
theorem C5_amended_fingerprint :
    (∀ l₁ l₂ : List (List Char), l₁.Perm l₂ → ignoreHashInput l₁ = ignoreHashInput l₂) ∧
      (∀ l₁ l₂ : List (List Char),
        (∀ p ∈ l₁, validPattern p) → (∀ p ∈ l₂, validPattern p) →
        ignoreHashInput l₁ = ignoreHashInput l₂ → l₁.Perm l₂) ∧
      (∀ (A B : List (List Char)) (x y : List Char),
        (∀ p ∈ A, validPattern p) → (∀ p ∈ B, validPattern p) →
        validPattern x → validPattern y → x ≠ y →
        ignoreHashInput (A ++ x :: B) ≠ ignoreHashInput (A ++ y :: B)) ∧
      (∀ (l : List (List Char)) (p : List Char),
        (∀ q ∈ l, validPattern q) → validPattern p →
        ignoreHashInput (l ++ [p]) ≠ ignoreHashInput l) ∧
      ∀ (l : List (List Char)) (p : List Char), l ≠ [] →
        ignoreHashInput (l ++ [p]) ≠ ignoreHashInput l := by
  refine ⟨fun l₁ l₂ h => ?_, fun l₁ l₂ h₁ h₂ h => ignoreHashInput_perm_of_eq h₁ h₂ h,
    fun A B x y hA hB hx hy hxy hc => ?_, fun l p hl hp hc => ?_,
    fun l p hne => ignoreHashInput_append_ne l p hne⟩
  · unfold ignoreHashInput
    rw [sortStrings_eq_of_perm h]
  · have hvx : ∀ p ∈ A ++ x :: B, validPattern p := by
      intro p hp
      rcases List.mem_append.mp hp with hp | hp
      · exact hA p hp
      · rcases List.mem_cons.mp hp with hp | hp
        · exact hp ▸ hx
        · exact hB p hp
    have hvy : ∀ p ∈ A ++ y :: B, validPattern p := by
      intro p hp
      rcases List.mem_append.mp hp with hp | hp
      · exact hA p hp
      · rcases List.mem_cons.mp hp with hp | hp
        · exact hp ▸ hy
        · exact hB p hp
    have hperm := ignoreHashInput_perm_of_eq hvx hvy hc
    have hcons : (x :: B).Perm (y :: B) := (List.perm_append_left_iff A).mp hperm
    have hm : (x ::ₘ (B : Multiset (List Char))) = y ::ₘ (B : Multiset (List Char)) := by
      exact_mod_cast Multiset.coe_eq_coe.mpr hcons
    exact hxy ((Multiset.cons_inj_left _).mp hm)
  · have hv : ∀ q ∈ l ++ [p], validPattern q := by
      intro q hq
      rcases List.mem_append.mp hq with hq | hq
      · exact hl q hq
      · rcases List.mem_cons.mp hq with hq | hq
        · exact hq ▸ hp
        · cases hq
    have hperm := ignoreHashInput_perm_of_eq hv hl hc
    have := hperm.length_eq
    simp at this

/-- C5 (witness).  The amended fingerprint theorem applied at concrete rule
lists: reordering two rules keeps the hash input, editing one rule of three
changes it, appending a rule changes it. -/
theorem C5_amended_fingerprint_witness :
    ignoreHashInput ["a".data, "b".data] = ignoreHashInput ["b".data, "a".data] ∧
      ignoreHashInput (["a".data] ++ "x".data :: ["b".data]) ≠
        ignoreHashInput (["a".data] ++ "y".data :: ["b".data]) ∧
      ignoreHashInput (["a".data] ++ ["b".data]) ≠ ignoreHashInput ["a".data] :=
  ⟨C5_amended_fingerprint.1 _ _ (by decide),
    C5_amended_fingerprint.2.2.1 ["a".data] ["b".data] "x".data "y".data
      (by decide) (by decide) (by decide) (by decide) (by decide),
    C5_amended_fingerprint.2.2.2.1 ["a".data] "b".data (by decide) (by decide)⟩

/-! ### Content cache (cache_manager.py) -/

/-- Python `os.path.join(a, b)` for POSIX paths, two arguments. -/
def pyJoin2 (a b : List Char) : List Char :=
  if b.head? = some '/' then b
  else if a = [] ∨ a.getLast? = some '/' then a ++ b
  else a ++ '/' :: b

/-- `CacheManager._get_cache_file_path` (cache_manager.py lines 20-32): the
cache file path is the cache directory joined with the MD5 hex digest of the
content — a function of the content bytes alone.  The digest function is
abstracted as a parameter `hash`; every theorem below holds for arbitrary
`hash`, hence for MD5. -/
def get_cache_file_path (hash : List Char → List Char) (cacheDir content : List Char) :
    List Char :=
  pyJoin2 cacheDir (hash content)

/-- The on-disk cache store: one file per content hash, modelled as a map
from file path to file contents. -/
def CacheStore : Type := List Char → Option (List Char)

/-- `CacheManager.save_to_cache` (cache_manager.py lines 53-66) on the success
path: write the translation to the file named by the content hash. -/
def save_to_cache (hash : List Char → List Char) (cacheDir : List Char)
    (store : CacheStore) (originalContent translatedContent : List Char) : CacheStore :=
  fun p => if p = get_cache_file_path hash cacheDir originalContent
    then some translatedContent else store p

/-- `CacheManager.get_from_cache` (cache_manager.py lines 34-51) on the
success path: read the file named by the content hash, `none` when absent. -/
def get_from_cache (hash : List Char → List Char) (cacheDir : List Char)
    (store : CacheStore) (content : List Char) : Option (List Char) :=
  store (get_cache_file_path hash cacheDir content)

/-- C6.  For every content `x` and translation `y`: a `get x` after `put x y`
returns `y`; putting the identical pair twice equals putting it once; and the
cache key is derived solely from the content bytes — two contents with equal
digests share the cache file path whatever the file path, language pair, or
chunk parameters of the surrounding run (which `_get_cache_file_path` does
not even receive). -/
theorem C6_cache_contract :
    (∀ (hash : List Char → List Char) (dir : List Char) (store : CacheStore)
        (x y : List Char),
      get_from_cache hash dir (save_to_cache hash dir store x y) x = some y) ∧
      (∀ (hash : List Char → List Char) (dir : List Char) (store : CacheStore)
          (x y : List Char),
        save_to_cache hash dir (save_to_cache hash dir store x y) x y =
          save_to_cache hash dir store x y) ∧
      ∀ (hash : List Char → List Char) (dir x x' : List Char), hash x = hash x' →
        get_cache_file_path hash dir x = get_cache_file_path hash dir x' := by
  refine ⟨fun hash dir store x y => ?_, fun hash dir store x y => ?_,
    fun hash dir x x' h => ?_⟩
  · simp [get_from_cache, save_to_cache]
  · funext p
    simp only [save_to_cache]
    split <;> rfl
  · simp [get_cache_file_path, h]

/-- C6 (witness).  The cache contract applied at a concrete digest function,
directory, store and contents. -/
theorem C6_cache_contract_witness :
    get_from_cache (fun _ => "h".data) "d".data
        (save_to_cache (fun _ => "h".data) "d".data (fun _ => none) "x".data "y".data)
        "x".data = some "y".data ∧
      get_cache_file_path (fun _ => "h".data) "d".data "x".data =
        get_cache_file_path (fun _ => "h".data) "d".data "z".data :=
  ⟨C6_cache_contract.1 _ _ _ _ _, C6_cache_contract.2.2 _ _ _ _ rfl⟩

/-! ### Incremental change detection (document_translator.py lines 501-564) -/

/-- `DocumentTranslator._get_changed_files_with_ignores`: decides which
candidate files to retranslate.  `currentCommit` is the result of
`_get_git_commit_hash` (`none` when the directory is not a repository, the
revision cannot be resolved, or git is unavailable — those exceptions are
caught and turned into `None`).  `lastState` is the parsed checkpoint
(`none` when the file is absent or unparsable).  `diff` is the outcome of
the `git diff --name-only` subprocess (`none` when it fails with
`CalledProcessError`, which the source catches).  `relOf` computes each
file's path relative to the directory root. -/
def get_changed_files_with_ignores {α : Type} (currentCommit : Option (List Char))
    (currentIgnoreHash : List Char) (lastState : Option StateRec)
    (diff : Option (List (List Char))) (relOf : α → List Char)
    (markdownFiles : List α) : List α :=
  match currentCommit with
  | none => markdownFiles
  | some cc =>
    match lastState with
    | none => markdownFiles
    | some st =>
      if some currentIgnoreHash ≠ st.ignore_hash then markdownFiles
      else if st.last_commit_hash = some cc then []
      else
        match diff with
        | none => markdownFiles
        | some changed => markdownFiles.filter (fun f => changed.contains (relOf f))

/-- C7.  In incremental mode, whenever the current ignore-rule fingerprint
differs from the one recorded in the checkpoint, the full candidate set is
selected — independently of the current commit, the recorded commit, and the
diff result. -/
theorem C7_ignore_change_forces_full {α : Type} (cc ih : List Char) (st : StateRec)
    (diff : Option (List (List Char))) (relOf : α → List Char)
    (files : List α) (h : st.ignore_hash ≠ some ih) :
    get_changed_files_with_ignores (some cc) ih (some st) diff relOf files = files := by
  have hne : some ih ≠ st.ignore_hash := fun hc => h hc.symm
  simp [get_changed_files_with_ignores, hne]

/-- C7 (witness).  A concrete incremental run with an unchanged commit but a
changed fingerprint selects the full candidate set. -/
theorem C7_ignore_change_forces_full_witness :
    get_changed_files_with_ignores (some "c".data) "i2".data
        (some ⟨some "c".data, some "i1".data⟩) (some []) (fun n : Nat => [Char.ofNat n])
        [1, 2, 3] = [1, 2, 3] :=
  C7_ignore_change_forces_full "c".data "i2".data ⟨some "c".data, some "i1".data⟩
    (some []) (fun n : Nat => [Char.ofNat n]) [1, 2, 3] (by decide)

/-- C8.  Change detection fails soft: when the current revision cannot be
resolved the full candidate set is processed; when the revisions differ and
the underlying diff subprocess fails the full candidate set is processed; and
this equals the behaviour with no checkpoint at all, which also selects the
full candidate set.  In all three cases the embedded function returns instead
of raising — the source catches the corresponding exceptions. -/
theorem C8_fails_soft {α : Type} (relOf : α → List Char) (files : List α) :
    (∀ (ih : List Char) (lastState : Option StateRec) (diff : Option (List (List Char))),
        get_changed_files_with_ignores none ih lastState diff relOf files = files) ∧
      (∀ (cc ih : List Char) (st : StateRec),
        st.ignore_hash = some ih → st.last_commit_hash ≠ some cc →
          get_changed_files_with_ignores (some cc) ih (some st) none relOf files = files) ∧
      ∀ (cc : Option (List Char)) (ih : List Char) (diff : Option (List (List Char))),
        get_changed_files_with_ignores cc ih none diff relOf files = files := by
  refine ⟨fun ih lastState diff => rfl, fun cc ih st hih hcc => ?_, fun cc ih diff => ?_⟩
  · simp [get_changed_files_with_ignores, hih, hcc]
  · cases cc <;> rfl

/-- C8 (witness).  The fail-soft theorem applied to a concrete candidate list
and a checkpoint whose commit differs while the diff tool fails. -/
theorem C8_fails_soft_witness :
    get_changed_files_with_ignores none "i".data none none
        (fun n : Nat => [Char.ofNat n]) [1, 2] = [1, 2] ∧
      get_changed_files_with_ignores (some "c2".data) "i".data
          (some ⟨some "c1".data, some "i".data⟩) none
          (fun n : Nat => [Char.ofNat n]) [1, 2] = [1, 2] :=
  ⟨(C8_fails_soft (fun n : Nat => [Char.ofNat n]) [1, 2]).1 "i".data none none,
    (C8_fails_soft (fun n : Nat => [Char.ofNat n]) [1, 2]).2.1 "c2".data "i".data
      ⟨some "c1".data, some "i".data⟩ rfl (by decide)⟩

/-! ### Checkpoint file write (state_manager.py / git_manager.py) -/

/-- Observable contents of the `.aitdocs_state` file during
`StateManager.save_state` (state_manager.py lines 34-56; `GitManager.save_state`
is identical): the file is opened with mode `'w'`, which truncates it in
place, and `json.dump` then streams the serialized state into it.  Entry `k`
is the file content visible after `k` characters have been written (entry 0,
the empty file, is what the open itself leaves).  No temporary file or rename
is involved. -/
def save_state_observables (serialized : List Char) : List (List Char) :=
  (List.range (serialized.length + 1)).map (fun k => serialized.take k)

/-- C9 (counterexample).  During a checkpoint write of the serialized state
`"ab"` over a prior checkpoint `"xy"`, an intermediate observable file
content (the truncated, empty file) is neither the prior checkpoint nor the
complete new one — an interrupted write does not leave the complete prior
checkpoint behind, so the write is not a whole-value atomic replace. -/
theorem C9_counterexample :
    ∃ obs ∈ save_state_observables "ab".data, obs ≠ "xy".data ∧ obs ≠ "ab".data := by
  decide

/-- C9 (amended).  The checkpoint write truncates the state file in place and
streams the new serialization into it: the empty truncated file is observable
mid-write, every observable content is a prefix of the new serialized value
(never garbage), and the final observable content is the complete new value;
the prior checkpoint is not preserved once the write has begun. -/
theorem C9_amended_truncate_then_stream (serialized : List Char) :
    [] ∈ save_state_observables serialized ∧
      serialized ∈ save_state_observables serialized ∧
      ∀ obs ∈ save_state_observables serialized, obs <+: serialized := by
  refine ⟨?_, ?_, ?_⟩
  · exact List.mem_map.mpr ⟨0, by simp⟩
  · exact List.mem_map.mpr ⟨serialized.length, by simp⟩
  · intro obs hobs
    obtain ⟨k, _, hk⟩ := List.mem_map.mp hobs
    exact hk ▸ List.take_prefix k serialized

/-- C9 (witness).  The truncate-then-stream theorem at a concrete serialized
state. -/
theorem C9_amended_truncate_then_stream_witness :
    [] ∈ save_state_observables "ab".data ∧
      "ab".data ∈ save_state_observables "ab".data ∧
      ∀ obs ∈ save_state_observables "ab".data, obs <+: "ab".data :=
  C9_amended_truncate_then_stream "ab".data

/-! ### Output path derivation (document_translator.py lines 54-61, 102-121)

POSIX path semantics (`posixpath`), matching the stdlib functions the source
calls: `os.path.basename`, `os.path.dirname`, `os.path.splitext`,
`os.path.join`, `os.path.relpath`. -/

/-- Index of the last occurrence of `ch` (Python `s.rfind(ch)`, `none` for -1). -/
def rfindIdx (ch : Char) : List Char → Option Nat
  | [] => none
  | c :: cs =>
    match rfindIdx ch cs with
    | some j => some (j + 1)
    | none => if c = ch then some 0 else none

/-- `posixpath.basename`: everything after the last slash. -/
def basenameP (p : List Char) : List Char :=
  match rfindIdx '/' p with
  | some i => p.drop (i + 1)
  | none => p

/-- Strip trailing slashes (`head.rstrip(sep)` inside `posixpath.dirname`). -/
def rstripSlash (s : List Char) : List Char :=
  (s.reverse.dropWhile (fun c => c = '/')).reverse

/-- The trailing-slash normalisation step of `posixpath.dirname` (an empty or
all-slash head is returned as is). -/
def dirnameAux (head : List Char) : List Char :=
  if head.any (fun c => c ≠ '/') then rstripSlash head else head

/-- `posixpath.dirname`: the prefix up to and including the last slash, with
trailing slashes stripped unless the prefix is all slashes. -/
def dirnameP (p : List Char) : List Char :=
  dirnameAux (match rfindIdx '/' p with | some i => p.take (i + 1) | none => [])

/-- `posixpath.splitext` (via `genericpath._splitext`): split at the last dot,
provided it comes after the last slash and the basename up to it is not all
dots. -/
def splitextP (p : List Char) : List Char × List Char :=
  match rfindIdx '.' p with
  | none => (p, [])
  | some d =>
    match rfindIdx '/' p with
    | some s =>
      if s < d then
        if ((p.drop (s + 1)).take (d - (s + 1))).any (fun c => c ≠ '.') then
          (p.take d, p.drop d)
        else (p, [])
      else (p, [])
    | none =>
      if (p.take d).any (fun c => c ≠ '.') then (p.take d, p.drop d) else (p, [])

/-- Python `content.split('/')`. -/
def splitOnSlash : List Char → List (List Char)
  | [] => [[]]
  | c :: cs =>
    if c = '/' then [] :: splitOnSlash cs
    else
      match splitOnSlash cs with
      | [] => [[c]]
      | l :: ls => (c :: l) :: ls

/-- `[x for x in p.split(sep) if x]` inside `posixpath.relpath`. -/
def pathParts (p : List Char) : List (List Char) :=
  (splitOnSlash p).filter (fun x => x ≠ [])

/-- Length of the common prefix of the two component lists
(`len(commonprefix([start_list, path_list]))`). -/
def commonPrefixLen : List (List Char) → List (List Char) → Nat
  | a :: as, b :: bs => if a = b then commonPrefixLen as bs + 1 else 0
  | _, _ => 0

/-- `'/'`-joining of path components (`join(*rel_list)` over relative
components). -/
def joinSlash : List (List Char) → List Char
  | [] => []
  | [x] => x
  | x :: xs => x ++ '/' :: joinSlash xs

/-- `posixpath.relpath(path, start)`, modelled for already-normalised inputs
without `.`/`..` components: `abspath` prepends the same working directory to
both arguments, which cancels in the common-prefix computation, so it is
omitted. -/
def relpathP (path start : List Char) : List Char :=
  if List.replicate ((pathParts start).length - commonPrefixLen (pathParts start) (pathParts path))
        ['.', '.'] ++ (pathParts path).drop (commonPrefixLen (pathParts start) (pathParts path)) = [] then
    ['.']
  else
    joinSlash (List.replicate ((pathParts start).length -
        commonPrefixLen (pathParts start) (pathParts path)) ['.', '.'] ++
      (pathParts path).drop (commonPrefixLen (pathParts start) (pathParts path)))

/-- Output path computation of `translate_markdown_directory`
(document_translator.py lines 102-115) and `translate_markdown_file` (lines
54-61): with an output directory, join it with the directory part of the
source path relative to the root and rename the file to
`{stem}_{target_lang}.md`; without one, replace the extension of the source
path itself. -/
def output_file_path (directory_path file_path : List Char)
    (output_directory : Option (List Char)) (target_lang : List Char) : List Char :=
  match output_directory with
  | some od =>
    pyJoin2 (pyJoin2 od (dirnameP (relpathP file_path directory_path)))
      ((splitextP (basenameP file_path)).1 ++ '_' :: target_lang ++ ".md".data)
  | none => (splitextP file_path).1 ++ '_' :: target_lang ++ ".md".data

example : splitextP "a/b.c.md".data = ("a/b.c".data, ".md".data) := by decide
example : splitextP "a/.md".data = ("a/.md".data, []) := by decide
example : basenameP "a/b/c.md".data = "c.md".data := by decide
example : dirnameP "a/b/c.md".data = "a/b".data := by decide
example : dirnameP "c.md".data = [] := by decide
example : relpathP "d/s/f.md".data "d".data = "s/f.md".data := by decide
example :
    output_file_path "d".data "d/s/f.md".data (some "out".data) "zh".data =
      "out/s/f_zh.md".data := by decide
example :
    output_file_path "d".data "d/s/f.md".data none "zh".data =
      "d/s/f_zh".data ++ ".md".data := by decide

lemma rfindIdx_eq_none {ch : Char} : ∀ {s : List Char}, ch ∉ s → rfindIdx ch s = none := by
  intro s
  induction s with
  | nil => intro _; rfl
  | cons c cs ih =>
    intro h
    have hc : c ≠ ch := fun hc => h (hc ▸ List.mem_cons_self c cs)
    have hcs : ch ∉ cs := fun hm => h (List.mem_cons_of_mem c hm)
    simp [rfindIdx, ih hcs, hc]

lemma rfindIdx_append {ch : Char} {y : List Char} {j : Nat}
    (h : rfindIdx ch y = some j) :
    ∀ x : List Char, rfindIdx ch (x ++ y) = some (x.length + j) := by
  intro x
  induction x with
  | nil => simpa using h
  | cons c cs ih => simp [rfindIdx, ih]; omega

lemma rfindIdx_cons_self {ch : Char} {b : List Char} (h : ch ∉ b) :
    rfindIdx ch (ch :: b) = some 0 := by
  simp [rfindIdx, rfindIdx_eq_none h]

lemma rfindIdx_dot_b {stem ext : List Char} (h : '.' ∉ ext) :
    rfindIdx '.' (stem ++ '.' :: ext) = some stem.length := by
  have h0 : rfindIdx '.' ('.' :: ext) = some 0 := rfindIdx_cons_self h
  simpa using rfindIdx_append h0 stem

lemma drop_across {P b : List Char} :
    (P ++ '/' :: b).drop (P.length + 1) = b := by
  have h2 : (P ++ '/' :: b) = (P ++ ['/']) ++ b := by simp
  have hlen : P.length + 1 = (P ++ ['/']).length := by simp
  rw [h2, hlen, List.drop_left]

lemma take_across {P b : List Char} :
    (P ++ '/' :: b).take (P.length + 1) = P ++ ['/'] := by
  have h2 : (P ++ '/' :: b) = (P ++ ['/']) ++ b := by simp
  have hlen : P.length + 1 = (P ++ ['/']).length := by simp
  rw [h2, hlen, List.take_left]

lemma basenameP_app {P b : List Char} (hb : '/' ∉ b) :
    basenameP (P ++ '/' :: b) = b := by
  simp only [basenameP, rfindIdx_append (rfindIdx_cons_self hb) P,
    Nat.add_zero, drop_across]

lemma splitextP_dir {P stem ext : List Char}
    (h1 : '/' ∉ stem) (h2 : '/' ∉ ext) (h3 : '.' ∉ ext)
    (h4 : ∃ c ∈ stem, c ≠ '.') :
    splitextP (P ++ '/' :: (stem ++ '.' :: ext)) = (P ++ '/' :: stem, '.' :: ext) := by
  have hb : '/' ∉ stem ++ '.' :: ext := by
    intro hm
    rcases List.mem_append.mp hm with hm | hm
    · exact h1 hm
    · rcases List.mem_cons.mp hm with hm | hm
      · cases hm
      · exact h2 hm
  have hslash : rfindIdx '/' (P ++ '/' :: (stem ++ '.' :: ext)) = some (P.length + 0) :=
    rfindIdx_append (rfindIdx_cons_self hb) P
  have hdotb : rfindIdx '.' ('/' :: (stem ++ '.' :: ext)) = some (stem.length + 1) := by
    have := rfindIdx_append (y := stem ++ '.' :: ext) (rfindIdx_dot_b h3) ['/']
    simpa [Nat.add_comm] using this
  have hdot : rfindIdx '.' (P ++ '/' :: (stem ++ '.' :: ext)) =
      some (P.length + (stem.length + 1)) :=
    rfindIdx_append hdotb P
  have hany : stem.any (fun c => decide (c ≠ '.')) = true := by
    obtain ⟨c, hc, hcne⟩ := h4
    exact List.any_eq_true.mpr ⟨c, hc, by simpa using hcne⟩
  have hdrop : (P ++ '/' :: (stem ++ '.' :: ext)).drop (P.length + 0 + 1) =
      stem ++ '.' :: ext := by
    rw [Nat.add_zero]
    exact drop_across
  have hsub : P.length + (stem.length + 1) - (P.length + 0 + 1) = stem.length := by
    omega
  have htake2 : (P ++ '/' :: (stem ++ '.' :: ext)).take (P.length + (stem.length + 1)) =
      P ++ '/' :: stem := by
    have hsplit : (P ++ '/' :: (stem ++ '.' :: ext)) = (P ++ '/' :: stem) ++ '.' :: ext := by
      simp
    have hlen2 : P.length + (stem.length + 1) = (P ++ '/' :: stem).length := by
      simp
    rw [hsplit, hlen2, List.take_left]
  have hdrop2 : (P ++ '/' :: (stem ++ '.' :: ext)).drop (P.length + (stem.length + 1)) =
      '.' :: ext := by
    have hsplit : (P ++ '/' :: (stem ++ '.' :: ext)) = (P ++ '/' :: stem) ++ '.' :: ext := by
      simp
    have hlen2 : P.length + (stem.length + 1) = (P ++ '/' :: stem).length := by
      simp
    rw [hsplit, hlen2, List.drop_left]
  simp only [splitextP, hdot, hslash, if_pos (show P.length + 0 < P.length + (stem.length + 1)
    by omega), hdrop, hsub, List.take_left, hany, if_true, htake2, hdrop2]

lemma splitextP_base {stem ext : List Char}
    (h1 : '/' ∉ stem) (h2 : '/' ∉ ext) (h3 : '.' ∉ ext)
    (h4 : ∃ c ∈ stem, c ≠ '.') :
    splitextP (stem ++ '.' :: ext) = (stem, '.' :: ext) := by
  have hb : '/' ∉ stem ++ '.' :: ext := by
    intro hm
    rcases List.mem_append.mp hm with hm | hm
    · exact h1 hm
    · rcases List.mem_cons.mp hm with hm | hm
      · cases hm
      · exact h2 hm
  have hany : stem.any (fun c => decide (c ≠ '.')) = true := by
    obtain ⟨c, hc, hcne⟩ := h4
    exact List.any_eq_true.mpr ⟨c, hc, by simpa using hcne⟩
  simp only [splitextP, rfindIdx_dot_b h3, rfindIdx_eq_none hb,
    List.take_left, hany, if_true, List.drop_left]

lemma splitOnSlash_no_slash {x : List Char} (h : '/' ∉ x) :
    splitOnSlash x = [x] := by
  induction x with
  | nil => rfl
  | cons c cs ih =>
    have hc : ¬c = '/' := fun hc => h (hc ▸ List.mem_cons_self c cs)
    have hcs : '/' ∉ cs := fun hm => h (List.mem_cons_of_mem c hm)
    simp [splitOnSlash, hc, ih hcs]

lemma splitOnSlash_app {x : List Char} (r : List Char) (h : '/' ∉ x) :
    splitOnSlash (x ++ '/' :: r) = x :: splitOnSlash r := by
  induction x with
  | nil => simp [splitOnSlash]
  | cons c cs ih =>
    have hc : ¬c = '/' := fun hc => h (hc ▸ List.mem_cons_self c cs)
    have hcs : '/' ∉ cs := fun hm => h (List.mem_cons_of_mem c hm)
    simp only [List.cons_append, splitOnSlash, if_neg hc, List.append_eq, ih hcs]

lemma pathParts_joinSlash :
    ∀ L : List (List Char), (∀ x ∈ L, x ≠ [] ∧ '/' ∉ x) →
      pathParts (joinSlash L) = L := by
  intro L
  induction L with
  | nil => intro _; rfl
  | cons x xs ih =>
    intro h
    obtain ⟨hx, hxs⟩ : (x ≠ [] ∧ '/' ∉ x) ∧ ∀ y ∈ xs, y ≠ [] ∧ '/' ∉ y := by
      refine ⟨h x (List.mem_cons_self x xs), fun y hy => h y (List.mem_cons_of_mem x hy)⟩
    cases xs with
    | nil =>
      simp only [joinSlash, pathParts, splitOnSlash_no_slash hx.2]
      simp [hx.1]
    | cons y ys =>
      have : joinSlash (x :: y :: ys) = x ++ '/' :: joinSlash (y :: ys) := rfl
      rw [this]
      simp only [pathParts, splitOnSlash_app _ hx.2, List.filter_cons]
      have hxne : (x ≠ ([] : List Char)) := hx.1
      simp only [decide_eq_true hxne, if_true]
      have := ih hxs
      simp only [pathParts] at this
      rw [this]

lemma commonPrefixLen_self_app :
    ∀ (L R' : List (List Char)), commonPrefixLen L (L ++ R') = L.length := by
  intro L R'
  induction L with
  | nil => cases R' <;> rfl
  | cons x xs ih => simp [commonPrefixLen, ih]

lemma joinSlash_app_singleton {L : List (List Char)} (b : List Char) (h : L ≠ []) :
    joinSlash (L ++ [b]) = joinSlash L ++ '/' :: b := by
  induction L with
  | nil => exact absurd rfl h
  | cons x xs ih =>
    cases xs with
    | nil => rfl
    | cons y ys =>
      have h1 : joinSlash ((x :: y :: ys) ++ [b]) = x ++ '/' :: joinSlash ((y :: ys) ++ [b]) := rfl
      have h2 : joinSlash (x :: y :: ys) = x ++ '/' :: joinSlash (y :: ys) := rfl
      rw [h1, h2, ih (by simp)]
      simp

lemma relpath_under (D R : List (List Char))
    (hDw : ∀ x ∈ D, x ≠ [] ∧ '/' ∉ x) (hRw : ∀ x ∈ R, x ≠ [] ∧ '/' ∉ x)
    (hR : R ≠ []) :
    relpathP (joinSlash (D ++ R)) (joinSlash D) = joinSlash R := by
  unfold relpathP
  rw [pathParts_joinSlash D hDw, pathParts_joinSlash (D ++ R) (by
    intro x hx
    rcases List.mem_append.mp hx with hx | hx
    · exact hDw x hx
    · exact hRw x hx)]
  rw [commonPrefixLen_self_app, Nat.sub_self, List.replicate_zero, List.nil_append,
    List.drop_left]
  rw [if_neg hR]

lemma joinSlash_ne_nil {L : List (List Char)} (hL : L ≠ [])
    (hw : ∀ x ∈ L, x ≠ [] ∧ '/' ∉ x) : joinSlash L ≠ [] := by
  cases L with
  | nil => exact absurd rfl hL
  | cons x xs =>
    cases xs with
    | nil => exact (hw x (List.mem_cons_self x [])).1
    | cons y ys =>
      have : joinSlash (x :: y :: ys) = x ++ '/' :: joinSlash (y :: ys) := rfl
      rw [this]
      simp

lemma joinSlash_head_ne {L : List (List Char)} (hL : L ≠ [])
    (hw : ∀ x ∈ L, x ≠ [] ∧ '/' ∉ x) : (joinSlash L).head? ≠ some '/' := by
  cases L with
  | nil => exact absurd rfl hL
  | cons x xs =>
    obtain ⟨hx1, hx2⟩ := hw x (List.mem_cons_self x xs)
    obtain ⟨c, cs, hc⟩ : ∃ c cs, x = c :: cs := by
      cases x with
      | nil => exact absurd rfl hx1
      | cons c cs => exact ⟨c, cs, rfl⟩
    have hcne : c ≠ '/' := fun h => hx2 (h ▸ hc ▸ List.mem_cons_self c cs)
    cases xs with
    | nil =>
      subst hc
      have hj : joinSlash [c :: cs] = c :: cs := rfl
      rw [hj]
      simpa using hcne
    | cons y ys =>
      have : joinSlash (x :: y :: ys) = x ++ '/' :: joinSlash (y :: ys) := rfl
      rw [this, hc]
      simpa using hcne

lemma getLast?_append_right {l₁ l₂ : List Char} (h : l₂ ≠ []) :
    (l₁ ++ l₂).getLast? = l₂.getLast? := by
  rw [List.getLast?_append]
  obtain ⟨v, hv⟩ : ∃ v, l₂.getLast? = some v := by
    cases hx : l₂.getLast? with
    | some v => exact ⟨v, rfl⟩
    | none => exact absurd (List.getLast?_eq_none_iff.mp hx) h
  rw [hv]
  rfl

lemma joinSlash_getLast_ne {L : List (List Char)} (hL : L ≠ [])
    (hw : ∀ x ∈ L, x ≠ [] ∧ '/' ∉ x) : (joinSlash L).getLast? ≠ some '/' := by
  induction L with
  | nil => exact absurd rfl hL
  | cons x xs ih =>
    obtain ⟨hx1, hx2⟩ := hw x (List.mem_cons_self x xs)
    cases xs with
    | nil =>
      intro hc
      have hj : joinSlash [x] = x := rfl
      rw [hj] at hc
      exact hx2 (List.mem_of_mem_getLast? (by rw [hc]; exact rfl))
    | cons y ys =>
      have hji : joinSlash (x :: y :: ys) = x ++ '/' :: joinSlash (y :: ys) := rfl
      rw [hji]
      have hyw : ∀ z ∈ y :: ys, z ≠ [] ∧ '/' ∉ z :=
        fun z hz => hw z (List.mem_cons_of_mem x hz)
      have hne : joinSlash (y :: ys) ≠ [] := joinSlash_ne_nil (by simp) hyw
      have hlast : (x ++ '/' :: joinSlash (y :: ys)).getLast? =
          (joinSlash (y :: ys)).getLast? := by
        rw [getLast?_append_right (by simp)]
        obtain ⟨a, as, ha⟩ : ∃ a as, joinSlash (y :: ys) = a :: as := by
          cases hx : joinSlash (y :: ys) with
          | nil => exact absurd hx hne
          | cons a as => exact ⟨a, as, rfl⟩
        rw [ha, List.getLast?_cons_cons]
      rw [hlast]
      exact ih (by simp) hyw

lemma joinSlash_any_ne {L : List (List Char)} (hL : L ≠ [])
    (hw : ∀ x ∈ L, x ≠ [] ∧ '/' ∉ x) :
    (joinSlash L).any (fun c => c ≠ '/') = true := by
  have hh := joinSlash_head_ne hL hw
  obtain ⟨c, cs, hc⟩ : ∃ c cs, joinSlash L = c :: cs := by
    cases hx : joinSlash L with
    | nil => exact absurd hx (joinSlash_ne_nil hL hw)
    | cons c cs => exact ⟨c, cs, rfl⟩
  rw [hc] at hh ⊢
  have : c ≠ '/' := by
    intro h
    exact hh (by rw [h]; rfl)
  simp [this]

lemma rstripSlash_app_slash {Q : List Char} (h : Q.getLast? ≠ some '/') :
    rstripSlash (Q ++ ['/']) = Q := by
  unfold rstripSlash
  rw [List.reverse_append]
  simp only [List.reverse_cons, List.reverse_nil, List.nil_append, List.singleton_append,
    List.dropWhile_cons]
  rw [if_pos (by simp)]
  cases hq : Q.reverse with
  | nil =>
    simp at hq
    simp [hq]
  | cons c cs =>
    have hcne : c ≠ '/' := by
      intro hc
      apply h
      rw [← List.head?_reverse, hq, hc]
      rfl
    rw [List.dropWhile_cons, if_neg (by simpa using hcne), ← hq, List.reverse_reverse]

lemma dirnameP_dir {Q b : List Char} (hb : '/' ∉ b)
    (hQlast : Q.getLast? ≠ some '/') (hQany : Q.any (fun c => c ≠ '/') = true) :
    dirnameP (Q ++ '/' :: b) = Q := by
  simp only [dirnameP, rfindIdx_append (rfindIdx_cons_self hb) Q, Nat.add_zero, take_across]
  unfold dirnameAux
  rw [if_pos (by rw [List.any_append, hQany]; rfl)]
  exact rstripSlash_app_slash hQlast

lemma dirnameP_no {b : List Char} (hb : '/' ∉ b) : dirnameP b = [] := by
  simp [dirnameP, rfindIdx_eq_none hb, dirnameAux]

lemma pyJoin2_std {a b : List Char} (ha : a ≠ []) (halast : a.getLast? ≠ some '/')
    (hbhead : b.head? ≠ some '/') : pyJoin2 a b = a ++ '/' :: b := by
  unfold pyJoin2
  rw [if_neg hbhead, if_neg (by push_neg; exact ⟨ha, halast⟩)]

lemma pyJoin2_nil_b {a : List Char} (ha : a ≠ []) (halast : a.getLast? ≠ some '/') :
    pyJoin2 a [] = a ++ ['/'] := by
  unfold pyJoin2
  rw [if_neg (by simp), if_neg (by push_neg; exact ⟨ha, halast⟩)]

lemma pyJoin2_slash_end {a b : List Char} (ha : a.getLast? = some '/')
    (hbhead : b.head? ≠ some '/') : pyJoin2 a b = a ++ b := by
  unfold pyJoin2
  rw [if_neg hbhead, if_pos (Or.inr ha)]

/-- C10.  Writing the source directory as components `D`, the source file as
`D ++ R₀ ++ [stem.ext]` (components non-empty and slash-free, the stem not
all dots, the extension dot-free): without an output directory the translated
file is written beside the source file, in the same directory with the
extension replaced by `_<target_lang>.md`; with an output directory `od` it
is written under `od`, mirroring the source-relative directory structure
`R₀`, with the same renamed file name. -/
theorem C10_output_path_derivation
    (D R₀ : List (List Char)) (stem ext lang od : List Char)
    (hD : D ≠ []) (hDw : ∀ x ∈ D, x ≠ [] ∧ '/' ∉ x)
    (hR₀w : ∀ x ∈ R₀, x ≠ [] ∧ '/' ∉ x)
    (hstem1 : '/' ∉ stem) (hstem2 : ∃ c ∈ stem, c ≠ '.')
    (hext1 : '/' ∉ ext) (hext2 : '.' ∉ ext)
    (hod1 : od ≠ []) (hod2 : od.getLast? ≠ some '/') :
    output_file_path (joinSlash D) (joinSlash ((D ++ R₀) ++ [stem ++ '.' :: ext]))
        none lang =
      joinSlash ((D ++ R₀) ++ [stem ++ '_' :: lang ++ ".md".data]) ∧
    output_file_path (joinSlash D) (joinSlash ((D ++ R₀) ++ [stem ++ '.' :: ext]))
        (some od) lang =
      od ++ '/' :: joinSlash (R₀ ++ [stem ++ '_' :: lang ++ ".md".data]) := by
  have hstemne : stem ≠ [] := by
    obtain ⟨c, hc, _⟩ := hstem2
    exact fun h => by simp [h] at hc
  have hb : '/' ∉ stem ++ '.' :: ext := by
    intro hm
    rcases List.mem_append.mp hm with hm | hm
    · exact hstem1 hm
    · rcases List.mem_cons.mp hm with hm | hm
      · cases hm
      · exact hext1 hm
  have hDR : D ++ R₀ ≠ [] := by
    intro h
    exact hD (List.append_eq_nil.mp h).1
  have hfp : joinSlash ((D ++ R₀) ++ [stem ++ '.' :: ext]) =
      joinSlash (D ++ R₀) ++ '/' :: (stem ++ '.' :: ext) :=
    joinSlash_app_singleton _ hDR
  have hnnhead : (stem ++ '_' :: lang ++ ".md".data).head? ≠ some '/' := by
    obtain ⟨c, cs, hc⟩ : ∃ c cs, stem = c :: cs := by
      cases hx : stem with
      | nil => exact absurd hx hstemne
      | cons c cs => exact ⟨c, cs, rfl⟩
    have hcm : c ∈ stem := hc ▸ List.mem_cons_self c cs
    have : c ≠ '/' := fun h => hstem1 (h ▸ hcm)
    rw [hc]
    simpa using this
  constructor
  · simp only [output_file_path, hfp, splitextP_dir hstem1 hext1 hext2 hstem2]
    rw [joinSlash_app_singleton _ hDR]
    simp
  · have hbw : ∀ x ∈ R₀ ++ [stem ++ '.' :: ext], x ≠ [] ∧ '/' ∉ x := by
      intro x hx
      rcases List.mem_append.mp hx with hx | hx
      · exact hR₀w x hx
      · rcases List.mem_cons.mp hx with hx | hx
        · subst hx
          exact ⟨by simp [hstemne], hb⟩
        · cases hx
    have hrel : relpathP (joinSlash ((D ++ R₀) ++ [stem ++ '.' :: ext])) (joinSlash D) =
        joinSlash (R₀ ++ [stem ++ '.' :: ext]) := by
      rw [List.append_assoc]
      exact relpath_under D (R₀ ++ [stem ++ '.' :: ext]) hDw hbw (by simp)
    have hrel2 : relpathP (joinSlash (D ++ R₀) ++ '/' :: (stem ++ '.' :: ext))
        (joinSlash D) = joinSlash (R₀ ++ [stem ++ '.' :: ext]) := by
      rw [← hfp]
      exact hrel
    simp only [output_file_path, hfp, hrel2, basenameP_app hb,
      splitextP_base hstem1 hext1 hext2 hstem2]
    by_cases hR0 : R₀ = []
    · subst hR0
      simp only [List.nil_append, joinSlash]
      rw [dirnameP_no hb, pyJoin2_nil_b hod1 hod2]
      rw [pyJoin2_slash_end (by rw [getLast?_append_right (by simp)]; rfl) hnnhead]
      simp
    · have hQlast : (joinSlash R₀).getLast? ≠ some '/' :=
        joinSlash_getLast_ne hR0 hR₀w
      have hQhead : (joinSlash R₀).head? ≠ some '/' :=
        joinSlash_head_ne hR0 hR₀w
      have hQne : joinSlash R₀ ≠ [] := joinSlash_ne_nil hR0 hR₀w
      rw [joinSlash_app_singleton _ hR0,
        dirnameP_dir hb hQlast (joinSlash_any_ne hR0 hR₀w),
        pyJoin2_std hod1 hod2 hQhead]
      have hlast2 : (od ++ '/' :: joinSlash R₀).getLast? = (joinSlash R₀).getLast? := by
        rw [getLast?_append_right (by simp)]
        obtain ⟨a, as, ha⟩ : ∃ a as, joinSlash R₀ = a :: as := by
          cases hx : joinSlash R₀ with
          | nil => exact absurd hx hQne
          | cons a as => exact ⟨a, as, rfl⟩
        rw [ha, List.getLast?_cons_cons]
      rw [pyJoin2_std (by simp) (by rw [hlast2]; exact hQlast) hnnhead]
      rw [joinSlash_app_singleton _ hR0]
      simp

/-- C10 (witness).  The output-path theorem at the concrete repository layout
`docs/guide/intro.md`, target language `zh`, output directory `out`. -/
theorem C10_output_path_derivation_witness :
    output_file_path "docs".data "docs/guide/intro.md".data none "zh".data =
        joinSlash (["docs".data, "guide".data] ++ ["intro_zh.md".data]) ∧
      output_file_path "docs".data "docs/guide/intro.md".data (some "out".data) "zh".data =
        "out".data ++ '/' :: joinSlash (["guide".data] ++ ["intro_zh.md".data]) :=
  C10_output_path_derivation ["docs".data] ["guide".data] "intro".data "md".data
    "zh".data "out".data (by decide) (by decide) (by decide) (by decide) (by decide)
    (by decide) (by decide) (by decide) (by decide)

end Aitdocs
